import Mathlib

/-!
Shallow embedding of the `ButtonModel` simulation from
`notebooks/agentpy_button_network.ipynb`.

The notebook defines a single agent-based model on top of the external
`agentpy` / `networkx` libraries:

* `setup`: create a network with `n` agents as its nodes and set
  `self.threads = 0`;
* `update`: record `max_cluster_size`, the size of the biggest connected
  component of the graph divided by `n`, and `threads_to_button`, the ratio
  `self.threads / n`;
* `step`: run `int(self.p.n * self.p.speed)` iterations, each adding one edge
  `self.buttons.graph.add_edge(*self.agents.random(2).node)` and incrementing
  `self.threads` by one.

The agentpy experiment runner drives a run as: `setup`, `update`, then for
each of `steps` time steps `step` followed by `update`.

The libraries themselves are not part of the repository; where their behavior
decides a claim, the corresponding definition is modelled from the spec and
says so in its doc comment.  Python floats are embedded as rationals, machine
integers as `Nat`/`Int`, and the two operations that can raise in Python
(`max` of an empty sequence, division by zero — both exactly when `n = 0`)
are embedded with `Option`.
-/

namespace ButtonNet

/-- Python `int(..)` applied to a (rational-valued) number: truncation toward
zero. -/
def pyInt (q : ℚ) : ℤ := if 0 ≤ q then ⌊q⌋ else ⌈q⌉

/-- An edge of the button graph: a pair of node identifiers. -/
abbrev Edge := ℕ × ℕ

/-- State of a `ButtonModel` instance.  Nodes are the identifiers
`0, …, n-1`, one per agent.

Modelled from the spec: the graph container (`ap.Network` over networkx) is an
external dependency whose code is not under `src/`; per the spec the graph
state is a mutable multigraph in which duplicate edges and self-loops are
retained, so the graph is embedded as the list of edges added so far.
`log` collects the pairs `(max_cluster_size, threads_to_button)` recorded by
successive `update` calls of one run. -/
structure ButtonModel where
  n : ℕ
  edges : List Edge
  threads : ℕ
  log : List (ℚ × ℚ)
  deriving DecidableEq, Repr

/-- `ButtonModel.setup`: create a graph with `n` agents (hence node
identifiers `0, …, n-1`, no edges) and set `self.threads = 0`.  Nothing has
been recorded yet. -/
def ButtonModel.setup (n : ℕ) : ButtonModel :=
  { n := n, edges := [], threads := 0, log := [] }

/-- The node set of the model's graph: one node per agent. -/
def ButtonModel.nodes (m : ButtonModel) : Finset ℕ := Finset.range m.n

/-- Whether the edge list `es` has an edge joining `a` and `b` (in either
orientation: the graph is undirected). -/
def adjB (es : List Edge) (a b : ℕ) : Bool :=
  es.any fun e => (e.1 == a && e.2 == b) || (e.1 == b && e.2 == a)

/-- Whether some node of `s` is joined to `b` by an edge of `es`. -/
def hasAdj (es : List Edge) (s : Finset ℕ) (b : ℕ) : Bool :=
  decide (∃ a ∈ s, adjB es a b = true)

/-- One breadth-first expansion: add to `s` every node of the graph joined to
`s` by an edge. -/
def expand (n : ℕ) (es : List Edge) (s : Finset ℕ) : Finset ℕ :=
  s ∪ (Finset.range n).filter fun b => hasAdj es s b = true

/-- The connected component of node `i`, computed by `n` breadth-first
expansions — enough to reach the fixpoint, since the graph has `n` nodes. -/
def compo (n : ℕ) (es : List Edge) (i : ℕ) : Finset ℕ :=
  (expand n es)^[n] {i}

/-- `max([len(g) for g in nx.connected_components(graph)])`: the number of
nodes of the largest connected component.  Every node lies in its own
component, and components are maximal, so the maximum over components of the
size equals the maximum over nodes of the size of that node's component. -/
def maxClusterSize (n : ℕ) (es : List Edge) : ℕ :=
  (Finset.range n).sup fun i => (compo n es i).card

/-- The pair of values recorded by one `update` call:
`max_cluster_size = max(len(g) for g in clusters) / n` and
`threads_to_button = self.threads / n`. -/
def ButtonModel.recordPair (m : ButtonModel) : ℚ × ℚ :=
  ((maxClusterSize m.n m.edges : ℚ) / m.n, (m.threads : ℚ) / m.n)

/-- The successful branch of `ButtonModel.update`: append the recorded pair
to the run's log. -/
def updateP (m : ButtonModel) : ButtonModel :=
  { m with log := m.log ++ [m.recordPair] }

/-- `ButtonModel.update`: record the size of the biggest cluster divided by
`n` and the threads-to-button ratio.  When `n = 0` the Python code raises
(`max` of an empty sequence, then division by zero), embedded as `none`. -/
def ButtonModel.update (m : ButtonModel) : Option ButtonModel :=
  if m.n = 0 then none else some (updateP m)

/-- The body of the loop in `ButtonModel.step`:
`self.buttons.graph.add_edge(*self.agents.random(2).node)` followed by
`self.threads += 1`. -/
def ButtonModel.addEdge (m : ButtonModel) (e : Edge) : ButtonModel :=
  { m with edges := m.edges ++ [e], threads := m.threads + 1 }

/-- `ButtonModel.step`: run `int(self.p.n * self.p.speed)` loop iterations,
each adding one drawn edge and incrementing the thread counter.

Modelled from the spec: `self.agents.random(2)` lives in the external agentpy
library; per the spec each draw yields a pair of agent nodes chosen uniformly
at random with replacement across draws, so the randomness is embedded as an
oracle `draws` giving the pair of node identifiers of each loop iteration. -/
def ButtonModel.step (m : ButtonModel) (speed : ℚ) (draws : ℕ → Edge) : ButtonModel :=
  (List.range (pyInt ((m.n : ℚ) * speed)).toNat).foldl
    (fun acc i => acc.addEdge (draws i)) m

/-- A draw oracle is valid for `n` agents when every drawn endpoint is one of
the `n` agent nodes.  Modelled from the spec: `random(2)` selects among the
model's own agents. -/
def validDraws (n : ℕ) (draws : ℕ → ℕ → Edge) : Prop :=
  ∀ t i, (draws t i).1 < n ∧ (draws t i).2 < n

/-- One time step of the agentpy run loop: `step` then `update`.  `draws t`
is the draw oracle of time step `t`. -/
def simStep (speed : ℚ) (draws : ℕ → ℕ → Edge) (t : ℕ) (m : ButtonModel) :
    Option ButtonModel :=
  (m.step speed (draws t)).update

/-- A full simulation run, as driven by the agentpy experiment runner:
`setup`, `update`, then `steps` repetitions of `step` followed by `update`.
`none` when some `update` raises (exactly when `n = 0`). -/
def runModel (n : ℕ) (speed : ℚ) (steps : ℕ) (draws : ℕ → ℕ → Edge) :
    Option ButtonModel :=
  (ButtonModel.setup n).update.bind fun m0 =>
    (List.range steps).foldlM (fun m t => simStep speed draws t m) m0

/-- The pure run: what `runModel` computes in the non-raising case. -/
def runPure (n : ℕ) (speed : ℚ) (steps : ℕ) (draws : ℕ → ℕ → Edge) : ButtonModel :=
  (List.range steps).foldl
    (fun m t => updateP (m.step speed (draws t)))
    (updateP (ButtonModel.setup n))

/-! ### Basic lemmas about the operations -/

/-- Evaluation helper for the Python loop bound `int(n * speed)`. -/
lemma pyInt_toNat_eq (q : ℚ) (k : ℕ) (h0 : 0 ≤ q) (hf : ⌊q⌋ = (k : ℤ)) :
    (pyInt q).toNat = k := by
  simp [pyInt, h0, hf]

/-- A fold of `addEdge` over a list of draw indices appends the drawn edges
and adds the number of iterations to the thread counter. -/
lemma foldl_addEdge (draws : ℕ → Edge) :
    ∀ (l : List ℕ) (m : ButtonModel),
      l.foldl (fun acc i => acc.addEdge (draws i)) m =
        { m with edges := m.edges ++ l.map draws, threads := m.threads + l.length } := by
  intro l
  induction l with
  | nil => intro m; simp
  | cons a l ih =>
      intro m
      rw [List.foldl_cons, ih]
      simp [ButtonModel.addEdge, List.append_assoc]
      omega

/-- Closed form of `ButtonModel.step`. -/
lemma step_eq (m : ButtonModel) (speed : ℚ) (draws : ℕ → Edge) :
    m.step speed draws =
      { m with
          edges := m.edges ++ (List.range (pyInt ((m.n : ℚ) * speed)).toNat).map draws,
          threads := m.threads + (pyInt ((m.n : ℚ) * speed)).toNat } := by
  rw [ButtonModel.step, foldl_addEdge]
  simp

lemma step_n (m : ButtonModel) (speed : ℚ) (draws : ℕ → Edge) :
    (m.step speed draws).n = m.n := by
  rw [step_eq]

lemma step_log (m : ButtonModel) (speed : ℚ) (draws : ℕ → Edge) :
    (m.step speed draws).log = m.log := by
  rw [step_eq]

lemma step_threads (m : ButtonModel) (speed : ℚ) (draws : ℕ → Edge) :
    (m.step speed draws).threads = m.threads + (pyInt ((m.n : ℚ) * speed)).toNat := by
  rw [step_eq]

lemma step_edges (m : ButtonModel) (speed : ℚ) (draws : ℕ → Edge) :
    (m.step speed draws).edges =
      m.edges ++ (List.range (pyInt ((m.n : ℚ) * speed)).toNat).map draws := by
  rw [step_eq]

lemma updateP_n (m : ButtonModel) : (updateP m).n = m.n := rfl

lemma updateP_edges (m : ButtonModel) : (updateP m).edges = m.edges := rfl

lemma updateP_threads (m : ButtonModel) : (updateP m).threads = m.threads := rfl

lemma updateP_log (m : ButtonModel) :
    (updateP m).log = m.log ++ [m.recordPair] := rfl

/-- `update` succeeds exactly on models with at least one node. -/
lemma update_eq_some (m : ButtonModel) (h : m.n ≠ 0) :
    m.update = some (updateP m) := by
  rw [ButtonModel.update, if_neg h]

/-- A fold preserves any invariant preserved by each iteration. -/
lemma foldl_preserves {P : ButtonModel → Prop} {f : ButtonModel → ℕ → ButtonModel}
    (hf : ∀ m t, P m → P (f m t)) :
    ∀ (l : List ℕ) (m : ButtonModel), P m → P (l.foldl f m) := by
  intro l
  induction l with
  | nil => intro m hm; simpa using hm
  | cons a l ih =>
      intro m hm
      rw [List.foldl_cons]
      exact ih _ (hf m a hm)

/-- As long as the model has a node, the monadic run loop never fails and
agrees with the pure fold. -/
lemma foldlM_simStep (speed : ℚ) (draws : ℕ → ℕ → Edge) :
    ∀ (l : List ℕ) (m : ButtonModel), m.n ≠ 0 →
      (List.foldlM (fun m t => simStep speed draws t m) m l : Option ButtonModel) =
        some (l.foldl (fun m t => updateP (m.step speed (draws t))) m) := by
  intro l
  induction l with
  | nil => intro m _; rfl
  | cons a l ih =>
      intro m hm
      have h1 : (m.step speed (draws a)).n = m.n := step_n m speed (draws a)
      rw [List.foldlM_cons, simStep, update_eq_some _ (by rw [h1]; exact hm)]
      show (l.foldlM (fun m t => simStep speed draws t m) (updateP (m.step speed (draws a)))) = _
      rw [ih _ (by rw [updateP_n, h1]; exact hm), List.foldl_cons]

/-- For `n ≥ 1` a run never fails: `runModel` returns the pure fold. -/
lemma runModel_eq_runPure (n : ℕ) (speed : ℚ) (steps : ℕ) (draws : ℕ → ℕ → Edge)
    (hn : n ≠ 0) :
    runModel n speed steps draws = some (runPure n speed steps draws) := by
  rw [runModel, update_eq_some _ (show (ButtonModel.setup n).n ≠ 0 from hn)]
  show (List.range steps).foldlM (fun m t => simStep speed draws t m)
      (updateP (ButtonModel.setup n)) = _
  rw [foldlM_simStep _ _ _ _ (show (updateP (ButtonModel.setup n)).n ≠ 0 from hn)]
  rfl

/-- The node count is constant along a run. -/
lemma runPure_n (n : ℕ) (speed : ℚ) (steps : ℕ) (draws : ℕ → ℕ → Edge) :
    (runPure n speed steps draws).n = n := by
  have h := foldl_preserves (P := fun m => m.n = n)
    (f := fun m t => updateP (m.step speed (draws t)))
    (fun m t hm => by show (updateP (m.step speed (draws t))).n = n
                      rw [updateP_n, step_n]; exact hm)
    (List.range steps) (updateP (ButtonModel.setup n)) rfl
  exact h

/-! ### Connected components: empty graph and monotonicity in the edge list -/

lemma adjB_append (es ts : List Edge) (a b : ℕ) (h : adjB es a b = true) :
    adjB (es ++ ts) a b = true := by
  rw [adjB, List.any_append]
  rw [adjB] at h
  simp [h]

lemma hasAdj_mono {es ts : List Edge} {s t : Finset ℕ} (hst : s ⊆ t) (b : ℕ)
    (h : hasAdj es s b = true) : hasAdj (es ++ ts) t b = true := by
  simp only [hasAdj, decide_eq_true_eq] at h ⊢
  obtain ⟨a, ha, hadj⟩ := h
  exact ⟨a, hst ha, adjB_append es ts a b hadj⟩

lemma expand_mono {n : ℕ} {es ts : List Edge} {s t : Finset ℕ} (hst : s ⊆ t) :
    expand n es s ⊆ expand n (es ++ ts) t := by
  rw [expand, expand]
  intro x hx
  rcases Finset.mem_union.1 hx with hx | hx
  · exact Finset.mem_union_left _ (hst hx)
  · rcases Finset.mem_filter.1 hx with ⟨hr, hadj⟩
    exact Finset.mem_union_right _ (Finset.mem_filter.2 ⟨hr, hasAdj_mono hst x hadj⟩)

lemma iterate_expand_mono (n : ℕ) (es ts : List Edge) :
    ∀ (k : ℕ) {s t : Finset ℕ}, s ⊆ t →
      (expand n es)^[k] s ⊆ (expand n (es ++ ts))^[k] t := by
  intro k
  induction k with
  | zero => intro s t hst; simpa using hst
  | succ k ih =>
      intro s t hst
      rw [Function.iterate_succ_apply, Function.iterate_succ_apply]
      exact ih (expand_mono hst)

/-- Adding edges can only grow a node's connected component. -/
lemma compo_mono (n : ℕ) (es ts : List Edge) (i : ℕ) :
    compo n es i ⊆ compo n (es ++ ts) i :=
  iterate_expand_mono n es ts n (Finset.Subset.refl _)

/-- Adding edges can only grow the biggest cluster. -/
lemma maxClusterSize_mono (n : ℕ) (es ts : List Edge) :
    maxClusterSize n es ≤ maxClusterSize n (es ++ ts) := by
  apply Finset.sup_mono_fun
  intro i _
  exact Finset.card_le_card (compo_mono n es ts i)

lemma hasAdj_nil (s : Finset ℕ) (b : ℕ) : hasAdj [] s b = false := by
  simp [hasAdj, adjB]

lemma expand_nil (n : ℕ) (s : Finset ℕ) : expand n [] s = s := by
  rw [expand]
  have h : (Finset.range n).filter (fun b => hasAdj [] s b = true) = ∅ := by
    apply Finset.filter_eq_empty_iff.2
    intro b _
    simp [hasAdj_nil]
  rw [h, Finset.union_empty]

/-- In the edgeless graph every node is its own component. -/
lemma compo_nil (n : ℕ) (i : ℕ) : compo n [] i = {i} := by
  rw [compo]
  exact Function.iterate_fixed (expand_nil n {i}) n

/-- In the edgeless graph on `n ≥ 1` nodes the biggest cluster has one node. -/
lemma maxClusterSize_nil (n : ℕ) (hn : n ≠ 0) : maxClusterSize n [] = 1 := by
  rw [maxClusterSize]
  have h1 : ∀ i ∈ Finset.range n, (compo n [] i).card = (fun _ => 1) i := by
    intro i _
    rw [compo_nil]
    exact Finset.card_singleton i
  rw [Finset.sup_congr rfl h1]
  exact Finset.sup_const (Finset.nonempty_range_iff.2 hn) 1

/-! ### The log of a run -/

/-- Each time step of a run records exactly one pair. -/
lemma foldl_log_length (speed : ℚ) (draws : ℕ → ℕ → Edge) :
    ∀ (l : List ℕ) (m : ButtonModel),
      (l.foldl (fun m t => updateP (m.step speed (draws t))) m).log.length
        = m.log.length + l.length := by
  intro l
  induction l with
  | nil => intro m; simp
  | cons a l ih =>
      intro m
      rw [List.foldl_cons, ih]
      show ((updateP (m.step speed (draws a))).log).length + l.length = _
      rw [updateP_log, step_log, List.length_append]
      simp
      omega

/-- A run over `steps` time steps records `steps + 1` pairs. -/
lemma runPure_log_length (n : ℕ) (speed : ℚ) (steps : ℕ) (draws : ℕ → ℕ → Edge) :
    (runPure n speed steps draws).log.length = steps + 1 := by
  rw [runPure, foldl_log_length]
  show (([] : List (ℚ × ℚ)) ++ [(ButtonModel.setup n).recordPair]).length + _ = _
  simp
  omega

/-- The record of the `update` that runs right after `setup`. -/
lemma setup_update_record (n : ℕ) (hn : n ≠ 0) :
    (updateP (ButtonModel.setup n)).log = [(1 / (n : ℚ), 0)] := by
  rw [updateP_log]
  show [] ++ [(ButtonModel.setup n).recordPair] = _
  rw [List.nil_append, ButtonModel.recordPair]
  show [((maxClusterSize n [] : ℚ) / n, ((0 : ℕ) : ℚ) / n)] = _
  rw [maxClusterSize_nil n hn]
  norm_num

/-- The first recorded pair of a run is `(1/n, 0)`. -/
lemma runPure_log_get_zero (n : ℕ) (speed : ℚ) (steps : ℕ) (draws : ℕ → ℕ → Edge)
    (hn : n ≠ 0) :
    (runPure n speed steps draws).log.get? 0 = some (1 / (n : ℚ), 0) := by
  rw [runPure]
  refine foldl_preserves (P := fun m => m.log.get? 0 = some (1 / (n : ℚ), 0)) ?_
    (List.range steps) _ ?_
  · intro m t hm
    show (updateP (m.step speed (draws t))).log.get? 0 = _
    rw [updateP_log, step_log]
    have hlen : 0 < m.log.length := by
      rcases List.get?_eq_some.1 hm with ⟨h, _⟩
      omega
    rw [List.get?_append hlen]
    exact hm
  · show (updateP (ButtonModel.setup n)).log.get? 0 = _
    rw [setup_update_record n hn]
    rfl

/-- The second component of every recorded pair: after `k` completed steps the
thread counter holds `k` times the loop bound, and `update` records it divided
by `n`. -/
lemma runPure_log_snd (n : ℕ) (speed : ℚ) (steps : ℕ) (draws : ℕ → ℕ → Edge)
    (hn : n ≠ 0) (k : ℕ) (x : ℚ × ℚ)
    (hx : (runPure n speed steps draws).log.get? k = some x) :
    x.2 = ((k * (pyInt ((n : ℚ) * speed)).toNat : ℕ) : ℚ) / n := by
  have key := foldl_preserves
    (P := fun m => m.n = n ∧ 0 < m.log.length ∧
      m.threads = (m.log.length - 1) * (pyInt ((n : ℚ) * speed)).toNat ∧
      ∀ j y, m.log.get? j = some y →
        y.2 = ((j * (pyInt ((n : ℚ) * speed)).toNat : ℕ) : ℚ) / n)
    (f := fun m t => updateP (m.step speed (draws t)))
    ?_ (List.range steps) (updateP (ButtonModel.setup n)) ?_
  · exact key.2.2.2 k x hx
  · intro m t hm
    obtain ⟨h1, h2, h3, h4⟩ := hm
    set c := (pyInt ((n : ℚ) * speed)).toNat with hc
    have hstn : (m.step speed (draws t)).n = n := by rw [step_n]; exact h1
    have hstt : (m.step speed (draws t)).threads = m.threads + c := by
      rw [step_threads, h1]
    have hmul : m.log.length * c = (m.log.length - 1) * c + c := by
      obtain ⟨L, hL⟩ : ∃ L, m.log.length = L + 1 :=
        ⟨m.log.length - 1, (Nat.sub_add_cancel h2).symm⟩
      rw [hL, Nat.add_sub_cancel, Nat.add_mul, one_mul]
    have hrec : ((m.step speed (draws t)).recordPair).2
        = ((m.log.length * c : ℕ) : ℚ) / n := by
      rw [ButtonModel.recordPair, hstn, hstt, h3, ← hmul]
    refine ⟨?_, ?_, ?_, ?_⟩
    · show (updateP (m.step speed (draws t))).n = n
      rw [updateP_n]; exact hstn
    · show 0 < (updateP (m.step speed (draws t))).log.length
      rw [updateP_log, step_log, List.length_append]
      simp
    · show (updateP (m.step speed (draws t))).threads = _
      rw [updateP_threads, updateP_log, step_log, List.length_append, hstt, h3]
      simp only [List.length_singleton, Nat.add_sub_cancel]
      exact hmul.symm
    · intro j y hy
      rw [updateP_log, step_log] at hy
      rcases lt_trichotomy j m.log.length with hj | hj | hj
      · rw [List.get?_append hj] at hy
        exact h4 j y hy
      · subst hj
        rw [List.get?_concat_length] at hy
        cases Option.some.inj hy
        exact hrec
      · rw [List.get?_eq_none.2 (by simp; omega)] at hy
        cases hy
  · refine ⟨rfl, ?_, ?_, ?_⟩
    · rw [setup_update_record n hn]; simp
    · show (updateP (ButtonModel.setup n)).threads = _
      rw [setup_update_record n hn, updateP_threads]
      simp [ButtonModel.setup]
    · intro j y hy
      rw [setup_update_record n hn] at hy
      cases j with
      | zero =>
          cases Option.some.inj hy
          simp
      | succ j => cases hy

/-- Along a run, recorded `max_cluster_size` values are pairwise
non-decreasing: every recorded value stays below the current biggest cluster,
and the graph only ever gains edges. -/
lemma runPure_log_pairwise (n : ℕ) (speed : ℚ) (steps : ℕ) (draws : ℕ → ℕ → Edge)
    (hn : n ≠ 0) :
    List.Pairwise (fun p q : ℚ × ℚ => p.1 ≤ q.1) (runPure n speed steps draws).log := by
  have hc : (0 : ℚ) < (n : ℚ) := by exact_mod_cast Nat.pos_of_ne_zero hn
  have key := foldl_preserves
    (P := fun m => m.n = n ∧
      List.Pairwise (fun p q : ℚ × ℚ => p.1 ≤ q.1) m.log ∧
      ∀ p ∈ m.log, p.1 ≤ (maxClusterSize n m.edges : ℚ) / n)
    (f := fun m t => updateP (m.step speed (draws t)))
    ?_ (List.range steps) (updateP (ButtonModel.setup n)) ?_
  · exact key.2.1
  · intro m t hm
    obtain ⟨h1, h2, h3⟩ := hm
    have hes := step_edges m speed (draws t)
    have hmono : (maxClusterSize n m.edges : ℚ) / n
        ≤ (maxClusterSize n (m.step speed (draws t)).edges : ℚ) / n := by
      apply (div_le_div_right hc).2
      have h := maxClusterSize_mono n m.edges
        ((List.range (pyInt ((m.n : ℚ) * speed)).toNat).map (draws t))
      rw [← hes] at h
      exact_mod_cast h
    have hrec1 : ((m.step speed (draws t)).recordPair).1
        = (maxClusterSize n (m.step speed (draws t)).edges : ℚ) / n := by
      rw [ButtonModel.recordPair, step_n, h1]
    refine ⟨?_, ?_, ?_⟩
    · show (updateP (m.step speed (draws t))).n = n
      rw [updateP_n, step_n]
      exact h1
    · show List.Pairwise _ (updateP (m.step speed (draws t))).log
      rw [updateP_log, step_log]
      refine List.pairwise_append.2 ⟨h2, List.pairwise_singleton _ _, ?_⟩
      intro p hp q hq
      rw [List.mem_singleton] at hq
      subst hq
      rw [hrec1]
      exact le_trans (h3 p hp) hmono
    · intro p hp
      show p.1 ≤ (maxClusterSize n (updateP (m.step speed (draws t))).edges : ℚ) / n
      rw [updateP_edges]
      rw [updateP_log, step_log] at hp
      rcases List.mem_append.1 hp with hp | hp
      · exact le_trans (h3 p hp) hmono
      · rw [List.mem_singleton] at hp
        subst hp
        rw [hrec1]
  · refine ⟨rfl, ?_, ?_⟩
    · rw [setup_update_record n hn]
      exact List.pairwise_singleton _ _
    · intro p hp
      rw [setup_update_record n hn, List.mem_singleton] at hp
      subst hp
      show (1 / (n : ℚ)) ≤ (maxClusterSize n (updateP (ButtonModel.setup n)).edges : ℚ) / n
      rw [updateP_edges]
      show (1 / (n : ℚ)) ≤ (maxClusterSize n [] : ℚ) / n
      rw [maxClusterSize_nil n hn]
      norm_num

/-- Under valid draws, every edge of the final graph joins two of the `n`
agent nodes. -/
lemma runPure_edges_valid (n : ℕ) (speed : ℚ) (steps : ℕ) (draws : ℕ → ℕ → Edge)
    (hv : validDraws n draws) :
    ∀ e ∈ (runPure n speed steps draws).edges, e.1 < n ∧ e.2 < n := by
  have key := foldl_preserves
    (P := fun m => ∀ e ∈ m.edges, e.1 < n ∧ e.2 < n)
    (f := fun m t => updateP (m.step speed (draws t)))
    ?_ (List.range steps) (updateP (ButtonModel.setup n)) ?_
  · exact key
  · intro m t hm e he
    have he2 : e ∈ (m.step speed (draws t)).edges := by
      rw [← updateP_edges]
      exact he
    rw [step_edges] at he2
    rcases List.mem_append.1 he2 with he2 | he2
    · exact hm e he2
    · obtain ⟨i, _, hei⟩ := List.mem_map.1 he2
      subst hei
      exact hv t i
  · intro e he
    rw [updateP_edges] at he
    cases he

/-! ### Claims -/

/-- C2: for every parameterization with `n ≥ 1` and `speed ≥ 0`, no operation
fails: the whole run — `setup`, the initial `update`, and every `step` and
`update` — completes without raising, returning the pure fold. -/
theorem C2_no_failure (n : ℕ) (speed : ℚ) (steps : ℕ) (draws : ℕ → ℕ → Edge)
    (hn : 1 ≤ n) (hs : 0 ≤ speed) :
    runModel n speed steps draws = some (runPure n speed steps draws) ∧
    (runModel n speed steps draws).isSome = true := by
  have h := runModel_eq_runPure n speed steps draws (by omega)
  exact ⟨h, by rw [h]; rfl⟩

theorem C2_no_failure_witness :
    (runModel 1 0 2 (fun _ _ => (0, 0))).isSome = true :=
  (C2_no_failure 1 0 2 (fun _ _ => (0, 0)) (le_refl 1) (le_refl 0)).2

/-- C3: the graph is a multigraph retaining duplicates: adding an edge whose
endpoints are already joined by an edge still appends it and still increases
the total edge count by one. -/
theorem C3_duplicate_edges_retained (m : ButtonModel) (e : Edge)
    (h : adjB m.edges e.1 e.2 = true) :
    (m.addEdge e).edges = m.edges ++ [e] ∧
    (m.addEdge e).edges.length = m.edges.length + 1 :=
  ⟨rfl, by simp [ButtonModel.addEdge]⟩

theorem C3_duplicate_edges_retained_witness :
    adjB [((0 : ℕ), (1 : ℕ))] 0 1 = true ∧
    (ButtonModel.addEdge ⟨2, [(0, 1)], 1, []⟩ (0, 1)).edges.length = 1 + 1 :=
  ⟨by decide,
   (C3_duplicate_edges_retained ⟨2, [(0, 1)], 1, []⟩ (0, 1) (by decide)).2⟩

/-- C4: for some parameterization with `n ≥ 1` and `speed ≥ 0` and some
sequence of draws, `step` adds a self-loop. -/
theorem C4_self_loop_possible :
    ∃ (n : ℕ) (speed : ℚ) (draws : ℕ → Edge) (a : ℕ),
      1 ≤ n ∧ 0 ≤ speed ∧
      (a, a) ∈ ((ButtonModel.setup n).step speed draws).edges := by
  refine ⟨1, 1, fun _ => (0, 0), 0, le_refl 1, by norm_num, ?_⟩
  have hk : (pyInt (((ButtonModel.setup 1).n : ℚ) * 1)).toNat = 1 := by
    apply pyInt_toNat_eq
    · norm_num [ButtonModel.setup]
    · norm_num [ButtonModel.setup]
  rw [step_eq, hk]
  simp

/-- C7: `setup` creates exactly `n` isolated nodes — a graph with `n` nodes,
no edges, every node its own component — and zeroes the thread counter. -/
theorem C7_setup_isolated (n : ℕ) :
    (ButtonModel.setup n).nodes.card = n ∧
    (ButtonModel.setup n).edges = [] ∧
    (ButtonModel.setup n).threads = 0 ∧
    ∀ i ∈ (ButtonModel.setup n).nodes,
      compo (ButtonModel.setup n).n (ButtonModel.setup n).edges i = {i} := by
  refine ⟨by simp [ButtonModel.nodes, ButtonModel.setup], rfl, rfl, ?_⟩
  intro i _
  exact compo_nil _ _

theorem C7_setup_isolated_witness :
    (ButtonModel.setup 3).nodes.card = 3 ∧
    compo (ButtonModel.setup 3).n (ButtonModel.setup 3).edges 1 = {1} :=
  ⟨(C7_setup_isolated 3).1, (C7_setup_isolated 3).2.2.2 1 (by decide)⟩

/-- C8: the thread counter starts at zero, each `step` increases it by
exactly `floor(n * speed)` (for `speed ≥ 0`), it never decreases under
`step`, and recording does not change it. -/
theorem C8_threads_counter :
    (∀ n : ℕ, (ButtonModel.setup n).threads = 0) ∧
    (∀ (m : ButtonModel) (speed : ℚ) (draws : ℕ → Edge), 0 ≤ speed →
      ((m.step speed draws).threads : ℤ) = (m.threads : ℤ) + ⌊(m.n : ℚ) * speed⌋) ∧
    (∀ (m : ButtonModel) (speed : ℚ) (draws : ℕ → Edge),
      m.threads ≤ (m.step speed draws).threads) ∧
    (∀ m : ButtonModel, (updateP m).threads = m.threads) := by
  refine ⟨fun n => rfl, ?_, ?_, fun m => rfl⟩
  · intro m speed draws hs
    have h0 : (0 : ℚ) ≤ (m.n : ℚ) * speed := mul_nonneg (Nat.cast_nonneg _) hs
    rw [step_threads, pyInt, if_pos h0]
    push_cast [Int.toNat_of_nonneg (Int.floor_nonneg.2 h0)]
    ring
  · intro m speed draws
    rw [step_threads]
    exact Nat.le_add_right _ _

theorem C8_threads_counter_witness :
    (0 : ℚ) ≤ 3 / 2 ∧
    (((ButtonModel.setup 2).step (3 / 2) (fun _ => (0, 1))).threads : ℤ)
      = ((ButtonModel.setup 2).threads : ℤ) + ⌊((ButtonModel.setup 2).n : ℚ) * (3 / 2)⌋ :=
  ⟨by norm_num,
   C8_threads_counter.2.1 (ButtonModel.setup 2) (3 / 2) (fun _ => (0, 1)) (by norm_num)⟩

/-- C9: when `0 ≤ n * speed < 1` the loop bound `int(n * speed)` is zero, so
`step` adds no edges and changes nothing at all — even for positive speed. -/
theorem C9_step_noop (m : ButtonModel) (speed : ℚ) (draws : ℕ → Edge)
    (h0 : 0 ≤ (m.n : ℚ) * speed) (h1 : (m.n : ℚ) * speed < 1) :
    m.step speed draws = m := by
  have hz : (pyInt ((m.n : ℚ) * speed)).toNat = 0 := by
    rw [pyInt, if_pos h0, Int.floor_eq_zero_iff.2 (by rw [Set.mem_Ico]; exact ⟨h0, h1⟩)]
    rfl
  rw [step_eq, hz]
  simp

theorem C9_step_noop_witness :
    (0 : ℚ) ≤ ((ButtonModel.setup 1).n : ℚ) * (1 / 2) ∧
    ((ButtonModel.setup 1).n : ℚ) * (1 / 2) < 1 ∧
    (ButtonModel.setup 1).step (1 / 2) (fun _ => (0, 0)) = ButtonModel.setup 1 := by
  have h0 : (0 : ℚ) ≤ ((ButtonModel.setup 1).n : ℚ) * (1 / 2) := by
    norm_num [ButtonModel.setup]
  have h1 : ((ButtonModel.setup 1).n : ℚ) * (1 / 2) < 1 := by
    norm_num [ButtonModel.setup]
  exact ⟨h0, h1, C9_step_noop (ButtonModel.setup 1) (1 / 2) (fun _ => (0, 0)) h0 h1⟩

/-- C5: for every `n ≥ 1`, the first recorded `max_cluster_size` — the
`update` that runs after `setup`, before any `step` — equals `1/n`. -/
theorem C5_first_max_cluster (n : ℕ) (speed : ℚ) (steps : ℕ) (draws : ℕ → ℕ → Edge)
    (hn : 1 ≤ n) (m : ButtonModel) (hrun : runModel n speed steps draws = some m) :
    (m.log.get? 0).map Prod.fst = some (1 / (n : ℚ)) := by
  rw [runModel_eq_runPure n speed steps draws (by omega)] at hrun
  have hm := Option.some.inj hrun
  subst hm
  rw [runPure_log_get_zero n speed steps draws (by omega)]
  rfl

theorem C5_first_max_cluster_witness :
    ((runPure 2 1 0 (fun _ _ => (0, 1))).log.get? 0).map Prod.fst = some (1 / (2 : ℚ)) :=
  C5_first_max_cluster 2 1 0 (fun _ _ => (0, 1)) (by norm_num) _
    (runModel_eq_runPure 2 1 0 (fun _ _ => (0, 1)) (by norm_num))

/-- C1: after `k` completed steps of a run with `n ≥ 1` and `speed ≥ 0`, the
recorded `threads_to_button` value equals `k * floor(n * speed) / n`. -/
theorem C1_threads_to_button (n : ℕ) (speed : ℚ) (steps : ℕ) (draws : ℕ → ℕ → Edge)
    (hn : 1 ≤ n) (hs : 0 ≤ speed) (m : ButtonModel)
    (hrun : runModel n speed steps draws = some m) (k : ℕ) (hk : k ≤ steps) :
    (m.log.get? k).map Prod.snd = some ((k : ℚ) * ((⌊(n : ℚ) * speed⌋ : ℤ) : ℚ) / n) := by
  rw [runModel_eq_runPure n speed steps draws (by omega)] at hrun
  have hm := Option.some.inj hrun
  subst hm
  have hlen : k < (runPure n speed steps draws).log.length := by
    rw [runPure_log_length]
    omega
  have hget := List.get?_eq_get hlen
  rw [hget]
  have h2 := runPure_log_snd n speed steps draws (by omega) k _ hget
  simp only [Option.map_some']
  rw [h2]
  have h0 : (0 : ℚ) ≤ (n : ℚ) * speed := mul_nonneg (Nat.cast_nonneg _) hs
  rw [pyInt, if_pos h0]
  have hcast : ((⌊(n : ℚ) * speed⌋.toNat : ℕ) : ℚ) = ((⌊(n : ℚ) * speed⌋ : ℤ) : ℚ) := by
    have := Int.toNat_of_nonneg (Int.floor_nonneg.2 h0)
    exact_mod_cast congrArg (fun z : ℤ => (z : ℚ)) this
  push_cast
  rw [hcast]

theorem C1_threads_to_button_witness :
    ((runPure 10 (1 / 2) 1 (fun _ _ => (0, 1))).log.get? 1).map Prod.snd
      = some ((((1 : ℕ)) : ℚ) * ((⌊((10 : ℕ) : ℚ) * (1 / 2)⌋ : ℤ) : ℚ) / ((10 : ℕ) : ℚ)) ∧
    ⌊((10 : ℕ) : ℚ) * (1 / 2)⌋ = 5 ∧
    ((((1 : ℕ)) : ℚ) * ((⌊((10 : ℕ) : ℚ) * (1 / 2)⌋ : ℤ) : ℚ) / ((10 : ℕ) : ℚ)) = 1 / 2 := by
  refine ⟨?_, by norm_num, by norm_num⟩
  exact C1_threads_to_button 10 (1 / 2) 1 (fun _ _ => (0, 1)) (by norm_num) (by norm_num)
    _ (runModel_eq_runPure 10 (1 / 2) 1 (fun _ _ => (0, 1)) (by norm_num)) 1 (le_refl 1)

/-- C6: within a single run the recorded `max_cluster_size` values are
non-decreasing: for any two recorded entries, the later one is at least the
earlier one. -/
theorem C6_max_cluster_monotone (n : ℕ) (speed : ℚ) (steps : ℕ) (draws : ℕ → ℕ → Edge)
    (hn : 1 ≤ n) (m : ButtonModel) (hrun : runModel n speed steps draws = some m)
    (i j : ℕ) (hij : i ≤ j) (x y : ℚ × ℚ)
    (hx : m.log.get? i = some x) (hy : m.log.get? j = some y) :
    x.1 ≤ y.1 := by
  rw [runModel_eq_runPure n speed steps draws (by omega)] at hrun
  have hm := Option.some.inj hrun
  subst hm
  have hp := runPure_log_pairwise n speed steps draws (by omega)
  rcases eq_or_lt_of_le hij with rfl | hlt
  · rw [hx] at hy
    rw [Option.some.inj hy]
  · obtain ⟨hi, hgi⟩ := List.get?_eq_some.1 hx
    obtain ⟨hj, hgj⟩ := List.get?_eq_some.1 hy
    have h := (List.pairwise_iff_get.1 hp) ⟨i, hi⟩ ⟨j, hj⟩ hlt
    rw [hgi, hgj] at h
    exact h

theorem C6_max_cluster_monotone_witness :
    (runPure 2 1 3 (fun _ _ => (0, 1))).log.get? 0 = some (1 / (2 : ℚ), 0) ∧
    ((1 / (2 : ℚ), (0 : ℚ)) : ℚ × ℚ).1 ≤ ((1 / (2 : ℚ), (0 : ℚ)) : ℚ × ℚ).1 := by
  have hx := runPure_log_get_zero 2 1 3 (fun _ _ => (0, 1)) (by norm_num)
  exact ⟨hx, C6_max_cluster_monotone 2 1 3 (fun _ _ => (0, 1)) (by norm_num) _
    (runModel_eq_runPure 2 1 3 (fun _ _ => (0, 1)) (by norm_num))
    0 0 (le_refl 0) _ _ hx hx⟩

/-- C10: the node set is fixed after `setup`: it is exactly the `n` agent
nodes, `step` and `update` never change it, and (for draws among the agents,
as the library guarantees) every edge of the final graph joins two agent
nodes. -/
theorem C10_node_set_fixed (n : ℕ) (speed : ℚ) (steps : ℕ) (draws : ℕ → ℕ → Edge)
    (hn : 1 ≤ n) (m : ButtonModel) (hrun : runModel n speed steps draws = some m) :
    m.nodes = (ButtonModel.setup n).nodes ∧
    (∀ (m' : ButtonModel) (sp : ℚ) (d : ℕ → Edge), (m'.step sp d).nodes = m'.nodes) ∧
    (∀ m' : ButtonModel, (updateP m').nodes = m'.nodes) ∧
    (validDraws n draws → ∀ e ∈ m.edges, e.1 ∈ m.nodes ∧ e.2 ∈ m.nodes) := by
  rw [runModel_eq_runPure n speed steps draws (by omega)] at hrun
  have hm := Option.some.inj hrun
  subst hm
  refine ⟨?_, ?_, ?_, ?_⟩
  · show Finset.range _ = Finset.range _
    rw [runPure_n]
    rfl
  · intro m' sp d
    show Finset.range _ = Finset.range _
    rw [step_n]
  · intro m'
    show Finset.range _ = Finset.range _
    rw [updateP_n]
  · intro hv e he
    have h := runPure_edges_valid n speed steps draws hv e he
    show e.1 ∈ Finset.range _ ∧ e.2 ∈ Finset.range _
    rw [runPure_n]
    exact ⟨Finset.mem_range.2 h.1, Finset.mem_range.2 h.2⟩

theorem C10_node_set_fixed_witness :
    (runPure 2 1 1 (fun _ _ => (0, 1))).nodes = (ButtonModel.setup 2).nodes ∧
    (∀ e ∈ (runPure 2 1 1 (fun _ _ => (0, 1))).edges,
      e.1 ∈ (runPure 2 1 1 (fun _ _ => (0, 1))).nodes ∧
      e.2 ∈ (runPure 2 1 1 (fun _ _ => (0, 1))).nodes) := by
  have hv : validDraws 2 (fun _ _ => (0, 1)) := fun t i => ⟨by norm_num, by norm_num⟩
  have h := C10_node_set_fixed 2 1 1 (fun _ _ => (0, 1)) (by norm_num) _
    (runModel_eq_runPure 2 1 1 (fun _ _ => (0, 1)) (by norm_num))
  exact ⟨h.1, h.2.2.2 hv⟩

end ButtonNet
